import Mathlib

/-!
Shallow embedding of the counter store in `src/app.py` (a small shared-state
counter keyed by normalized user names, persisted as a JSON object in a single
file, with an atomic-replace writer and a cross-process lock).

Modelling choices:
* Python strings are `List Char` (`Str`); a value that may be a non-string is
  `Option Str` with `none` standing for any non-string object.
* `str.casefold()` is modelled as ASCII lowercasing (the only case mapping the
  repository's data exercises); `str.split()` splits on whitespace runs.
* JSON values are the inductive `JVal`; JSON numbers are restricted to
  integers (floating point is out of the model).
* Python dicts are association lists in insertion order: assignment replaces
  the value at the first occurrence of the key or appends, as CPython does.
* The durable file is `FileContent`: `missing` (no file), `garbage`
  (unreadable or unparsable bytes), or `jval v` (bytes parsing to `v`).
  `FS` adds the count of leftover temporary files in the data directory.
* I/O failure is injected by a `SaveOutcome` parameter naming the step of
  `save_data` that fails, mirroring the `try/except` structure of the source.
-/

namespace Counter

/-- Python strings, modelled as lists of characters. -/
abbrev Str := List Char

/-- ASCII case folding of one character: models Python `str.casefold` on the
character range the application uses. -/
def casefoldChar : Char → Char
  | 'A' => 'a' | 'B' => 'b' | 'C' => 'c' | 'D' => 'd' | 'E' => 'e' | 'F' => 'f'
  | 'G' => 'g' | 'H' => 'h' | 'I' => 'i' | 'J' => 'j' | 'K' => 'k' | 'L' => 'l'
  | 'M' => 'm' | 'N' => 'n' | 'O' => 'o' | 'P' => 'p' | 'Q' => 'q' | 'R' => 'r'
  | 'S' => 's' | 'T' => 't' | 'U' => 'u' | 'V' => 'v' | 'W' => 'w' | 'X' => 'x'
  | 'Y' => 'y' | 'Z' => 'z'
  | c => c

/-- `s.casefold()`. -/
def casefold (s : Str) : Str := s.map casefoldChar

/-- Helper for `words`: `acc` is the (reversed) word being read. -/
def wordsAux : Str → Str → List Str
  | acc, [] => if acc = [] then [] else [acc.reverse]
  | acc, c :: cs =>
    if c.isWhitespace then
      if acc = [] then wordsAux [] cs else acc.reverse :: wordsAux [] cs
    else wordsAux (c :: acc) cs

/-- Python `s.split()` with no argument: split on runs of whitespace,
dropping empty pieces. -/
def words (s : Str) : List Str := wordsAux [] s

/-- Python `" ".join(ws)`. -/
def joinWords : List Str → Str
  | [] => []
  | [w] => w
  | w :: v :: ws => w ++ ' ' :: joinWords (v :: ws)

/-- `normalize_username` (app.py lines 25-30).  A non-string argument is
modelled as `none` and maps to the empty string. -/
def normalize_username : Option Str → Str
  | none => []
  | some s => casefold (joinWords (words s))

/-- JSON values as produced by `json.load` (numbers restricted to integers). -/
inductive JVal where
  | jnull
  | jbool (b : Bool)
  | jint (n : Int)
  | jstr (s : Str)
  | jarr (elems : List JVal)
  | jobj (fields : List (Str × JVal))

/-- Whether a JSON value is an object (`isinstance(data, dict)`). -/
def JVal.isObj : JVal → Bool
  | .jobj _ => true
  | _ => false

/-- Association-list tables standing for Python dicts `{username: total}`,
in insertion order. -/
abbrev Tbl := List (Str × Int)

/-- `d.get(k, dflt)`. -/
def dictGet : Tbl → Str → Int → Int
  | [], _, dflt => dflt
  | (k', v) :: rest, k, dflt => if k' = k then v else dictGet rest k dflt

/-- `d[k] = v`: replace at the first occurrence of `k`, else append
(CPython dict assignment keeps the key's original position). -/
def dictSet : Tbl → Str → Int → Tbl
  | [], k, v => [(k, v)]
  | (k', v') :: rest, k, v =>
    if k' = k then (k, v) :: rest else (k', v') :: dictSet rest k v

/-- `k in d`. -/
def dictMem : Tbl → Str → Bool
  | [], _ => false
  | (k', _) :: rest, k => decide (k' = k) || dictMem rest k

/-- All-digits string to its numeric value (empty and non-digit strings are
rejected), the digit-consuming core of Python `int(str)`. -/
def digitsVal (ds : Str) : Option Nat :=
  if ds ≠ [] ∧ ds.all Char.isDigit then
    some (ds.foldl (fun a c => 10 * a + (c.toNat - 48)) 0)
  else none

/-- Python `int` applied to a string: optional surrounding whitespace, an
optional sign, then decimal digits; anything else raises `ValueError`
(modelled as `none`). -/
def pyIntOfStr (s : Str) : Option Int :=
  let t := ((s.dropWhile Char.isWhitespace).reverse.dropWhile Char.isWhitespace).reverse
  match t with
  | '-' :: ds => (digitsVal ds).map (fun n => -(n : Int))
  | '+' :: ds => (digitsVal ds).map (fun n => (n : Int))
  | ds => (digitsVal ds).map (fun n => (n : Int))

/-- Python `int(raw_total)` on a JSON value: ints pass through, bools coerce
to 0/1, numeric strings parse; `None`, lists and objects raise `TypeError`
(modelled as `none`). -/
def pyToInt : JVal → Option Int
  | .jint n => some n
  | .jbool b => some (if b then 1 else 0)
  | .jstr s => pyIntOfStr s
  | _ => none

/-- One iteration of the loop body of `_normalize_data` (app.py lines 38-49). -/
def normStep (acc : Tbl) (kv : Str × JVal) : Tbl :=
  let name := normalize_username (some kv.1)
  if name = [] then acc
  else
    match pyToInt kv.2 with
    | none => acc
    | some total => dictSet acc name (dictGet acc name 0 + max 0 total)

/-- `_normalize_data` (app.py lines 32-51): keep only
`{username: non-negative int total}` entries, merging keys that normalize to
the same canonical user key. -/
def _normalize_data : JVal → Tbl
  | .jobj fields => fields.foldl normStep []
  | _ => []

/-- Durable state of the data file. -/
inductive FileContent where
  | missing
  | garbage
  | jval (v : JVal)

/-- The data directory: the durable file plus the number of leftover
temporary files. -/
structure FS where
  file : FileContent
  temps : Nat

/-- Which step of `save_data` fails, if any: `os.makedirs`, creating the
temporary file, `json.dump` into it, or `os.replace`. -/
inductive SaveOutcome where
  | ok
  | failMkdir
  | failCreate
  | failWrite
  | failRename

/-- The JSON object `json.dump` emits for a table (keys in order, integer
values); `json.load` on those bytes parses back to exactly this value. -/
def tableToJson (t : Tbl) : JVal := .jobj (t.map (fun p => (p.1, JVal.jint p.2)))

/-- The durable content a successful `save_data` leaves behind: the compact
JSON dump of `_normalize_data(data)`. -/
def writeTable (data : Tbl) : FileContent :=
  .jval (tableToJson (_normalize_data (tableToJson data)))

/-- `load_data` (app.py lines 67-75): a missing file or any parse failure
yields the empty table; otherwise the parsed value is normalized. -/
def load_data : FileContent → Tbl
  | .missing => []
  | .garbage => []
  | .jval v => _normalize_data v

/-- `save_data` (app.py lines 77-96).  On success the temporary file is
renamed onto the durable file.  On a `json.dump` failure the temporary file
is left behind: `temp_file_path = tmp.name` runs only after `json.dump`
returns, so the cleanup guard `if temp_file_path and ...` sees `None` and
skips the removal.  On an `os.replace` failure the path was recorded and the
temporary file is removed.  Every failure returns `False` with the durable
file untouched. -/
def save_data (fs : FS) (oc : SaveOutcome) (data : Tbl) : FS × Bool :=
  match oc with
  | .ok => ({ file := writeTable data, temps := fs.temps }, true)
  | .failMkdir => (fs, false)
  | .failCreate => (fs, false)
  | .failWrite => ({ fs with temps := fs.temps + 1 }, false)
  | .failRename => (fs, false)

/-- `ensure_user_exists` (app.py lines 98-110). -/
def ensure_user_exists (fs : FS) (oc : SaveOutcome) (username : Option Str) :
    FS × Bool :=
  let name := normalize_username username
  if name = [] then (fs, false)
  else
    let user_data := load_data fs.file
    if dictMem user_data name then (fs, true)
    else save_data fs oc (dictSet user_data name 0)

/-- `update_user_total` (app.py lines 112-131).  `delta` defaults to 0 at the
call sites; `absolute_total = some v` selects the absolute-write branch. -/
def update_user_total (fs : FS) (oc : SaveOutcome) (username : Option Str)
    (delta : Int) (absolute_total : Option Int) : FS × Option Int :=
  let name := normalize_username username
  if name = [] then (fs, none)
  else
    let user_data := load_data fs.file
    let current_total := dictGet user_data name 0
    let next_total :=
      match absolute_total with
      | none => current_total + delta
      | some v => v
    let written := dictSet user_data name (max 0 next_total)
    let res := save_data fs oc written
    if res.2 then (res.1, some (dictGet written name 0)) else (res.1, none)

/-- The read path `getTotal` (app.py lines 201, 206-207): normalize the name,
load the table outside the lock, return the stored total or 0.  It opens the
durable file read-only, so it is a pure function of the file content. -/
def get_total (fc : FileContent) (username : Option Str) : Int :=
  dictGet (load_data fc) (normalize_username username) 0

/-- An entry the Table invariant (spec §3) allows: a non-empty key that is a
fixed point of normalization, and a non-negative total. -/
def goodEntry (p : Str × Int) : Prop :=
  p.1 ≠ [] ∧ normalize_username (some p.1) = p.1 ∧ 0 ≤ p.2

/-- The Table invariant: every entry is good and keys are not duplicated. -/
def goodTbl (t : Tbl) : Prop :=
  (∀ p ∈ t, goodEntry p) ∧ (t.map Prod.fst).Nodup

instance (p : Str × Int) : Decidable (goodEntry p) := by
  unfold goodEntry; infer_instance

instance (t : Tbl) : Decidable (goodTbl t) := by
  unfold goodTbl; infer_instance

/-- Serial calls `update_user_total(name, d1), ..., update_user_total(name, dn)`
with every persist succeeding; yields the resulting durable state. -/
def runUpdates (fs : FS) (u : Option Str) (ds : List Int) : FS :=
  ds.foldl (fun s d => (update_user_total s .ok u d none).1) fs

/-- Progress of one session through `update_user_total`'s lock-guarded
read-modify-write cycle (app.py lines 118-131). -/
inductive Phase where
  | start
  | locked
  | loaded (t : Tbl)
  | saved
  | done
deriving DecidableEq

/-- Whether a phase is inside the `file_lock` critical section. -/
def inCrit : Phase → Bool
  | .start => false
  | .done => false
  | _ => true

/-- The delta a process has already contributed to the durable total. -/
def contrib (d : Int) : Phase → Int
  | .saved => d
  | .done => d
  | _ => 0

/-- Two independent sessions sharing the durable file and its lock file. -/
structure CState where
  file : FileContent
  holder : Option (Fin 2)
  ph : Fin 2 → Phase

/-- One scheduler step giving process `i` the CPU.  `fcntl.flock` blocks
while another process holds the lock, so an acquire attempt under contention
leaves the state unchanged (the process keeps waiting); otherwise `i`
advances one step through acquire → load → mutate-and-save (persist
succeeding) → release, exactly the body of `update_user_total`. -/
def updStep (name : Str) (ds : Fin 2 → Int) (s : CState) (i : Fin 2) : CState :=
  match s.ph i with
  | .start =>
    if s.holder = none then
      { s with holder := some i, ph := fun j => if j = i then .locked else s.ph j }
    else s
  | .locked =>
    { s with ph := fun j => if j = i then .loaded (load_data s.file) else s.ph j }
  | .loaded t =>
    { s with
      file := writeTable (dictSet t name (max 0 (dictGet t name 0 + ds i))),
      ph := fun j => if j = i then .saved else s.ph j }
  | .saved =>
    { s with holder := none, ph := fun j => if j = i then .done else s.ph j }
  | .done => s

/-- Initial state: both sessions about to call `update_user_total`. -/
def initState (fc : FileContent) : CState :=
  { file := fc, holder := none, ph := fun _ => .start }

/-- Run a scheduler interleaving of the two writers. -/
def runSched (fc : FileContent) (name : Str) (ds : Fin 2 → Int)
    (sched : List (Fin 2)) : CState :=
  sched.foldl (updStep name ds) (initState fc)

/-- The two concurrent writers of the claim: deltas +10 and +50. -/
def deltas2 : Fin 2 → Int := fun i => if i = 0 then 10 else 50

/-- Inductive invariant of the lock protocol: the durable table always
satisfies the Table invariant, its total for `name` is the initial total
plus the contributions of the processes that have already saved, only the
lock holder is inside the critical section, and a table loaded inside the
critical section is still the current durable table when it is written
back. -/
structure Inv (fc : FileContent) (name : Str) (ds : Fin 2 → Int) (s : CState) :
    Prop where
  good : goodTbl (load_data s.file)
  total : dictGet (load_data s.file) name 0
      = dictGet (load_data fc) name 0 + contrib (ds 0) (s.ph 0) + contrib (ds 1) (s.ph 1)
  lock : ∀ i, inCrit (s.ph i) = true → s.holder = some i
  loadedEq : ∀ i t, s.ph i = .loaded t → t = load_data s.file

/-!  Character-level facts about the modelled `casefold`. -/

theorem casefoldChar_fix (c : Char) (h : c.toNat < 65 ∨ 90 < c.toNat) :
    casefoldChar c = c := by
  unfold casefoldChar
  split <;> first | rfl | exact absurd h (by decide)

theorem casefoldChar_toNat (c : Char) :
    casefoldChar c = c ∨ (97 ≤ (casefoldChar c).toNat ∧ (casefoldChar c).toNat ≤ 122) := by
  unfold casefoldChar
  split <;> first | (left; rfl) | (right; decide)

theorem casefoldChar_idem (c : Char) : casefoldChar (casefoldChar c) = casefoldChar c := by
  rcases casefoldChar_toNat c with h | h
  · rw [h]; exact h
  · exact casefoldChar_fix _ (Or.inr (by omega))

theorem isWhitespace_casefoldChar (c : Char) :
    (casefoldChar c).isWhitespace = c.isWhitespace := by
  unfold casefoldChar
  split <;> rfl

theorem casefoldChar_space : casefoldChar ' ' = ' ' := by decide

/-!  Facts about `words` (Python `str.split()`) and `joinWords`. -/

theorem wordsAux_good : ∀ (s acc : Str), (∀ c ∈ acc, c.isWhitespace = false) →
    ∀ w ∈ wordsAux acc s, w ≠ [] ∧ ∀ c ∈ w, c.isWhitespace = false := by
  intro s
  induction s with
  | nil =>
    intro acc hacc w hw
    unfold wordsAux at hw
    split at hw
    · exact absurd hw (List.not_mem_nil w)
    · rcases List.mem_singleton.mp hw with rfl
      refine ⟨?_, ?_⟩
      · simpa [List.reverse_eq_nil_iff] using (by assumption : ¬acc = [])
      · intro c hc
        exact hacc c (List.mem_reverse.mp hc)
  | cons c cs ih =>
    intro acc hacc w hw
    unfold wordsAux at hw
    split at hw
    · split at hw
      · exact ih [] (by simp) w hw
      · rcases List.mem_cons.mp hw with rfl | hw
        · refine ⟨?_, ?_⟩
          · simpa [List.reverse_eq_nil_iff] using (by assumption : ¬acc = [])
          · intro d hd
            exact hacc d (List.mem_reverse.mp hd)
        · exact ih [] (by simp) w hw
    · refine ih (c :: acc) ?_ w hw
      intro d hd
      rcases List.mem_cons.mp hd with rfl | hd
      · simpa using (by assumption : ¬(d.isWhitespace = true))
      · exact hacc d hd

theorem words_good (s : Str) :
    ∀ w ∈ words s, w ≠ [] ∧ ∀ c ∈ w, c.isWhitespace = false :=
  wordsAux_good s [] (by simp)

theorem wordsAux_append (w : Str) (hw : ∀ c ∈ w, c.isWhitespace = false) :
    ∀ (acc s : Str), wordsAux acc (w ++ s) = wordsAux (w.reverse ++ acc) s := by
  induction w with
  | nil => intro acc s; simp
  | cons c cw ih =>
    intro acc s
    have hc : c.isWhitespace = false := hw c (List.mem_cons_self c cw)
    have step : wordsAux acc ((c :: cw) ++ s) = wordsAux (c :: acc) (cw ++ s) := by
      show wordsAux acc (c :: (cw ++ s)) = wordsAux (c :: acc) (cw ++ s)
      simp only [wordsAux, hc]
      simp
    rw [step, ih (fun d hd => hw d (List.mem_cons_of_mem c hd)) (c :: acc) s]
    simp

theorem words_joinWords : ∀ ws : List Str,
    (∀ w ∈ ws, w ≠ [] ∧ ∀ c ∈ w, c.isWhitespace = false) →
    words (joinWords ws) = ws := by
  intro ws
  induction ws with
  | nil => intro _; rfl
  | cons w vs ih =>
    intro h
    have hw := h w (List.mem_cons_self w vs)
    cases vs with
    | nil =>
      show wordsAux [] (joinWords [w]) = [w]
      have hrw : joinWords [w] = w ++ [] := by simp [joinWords]
      rw [hrw, wordsAux_append w hw.2 [] []]
      unfold wordsAux
      rw [if_neg (by simpa [List.reverse_eq_nil_iff, List.append_nil] using hw.1)]
      simp
    | cons v rest =>
      show wordsAux [] (joinWords (w :: v :: rest)) = w :: v :: rest
      have hrw : joinWords (w :: v :: rest) = w ++ ' ' :: joinWords (v :: rest) := rfl
      rw [hrw, wordsAux_append w hw.2 [] (' ' :: joinWords (v :: rest))]
      unfold wordsAux
      rw [if_pos (by decide)]
      rw [if_neg (by simpa [List.reverse_eq_nil_iff, List.append_nil] using hw.1)]
      have ihv := ih (fun u hu => h u (List.mem_cons_of_mem w hu))
      simp only [List.append_nil, List.reverse_reverse]
      exact congrArg (w :: ·) ihv

theorem wordsAux_map (f : Char → Char) (hf : ∀ c, (f c).isWhitespace = c.isWhitespace) :
    ∀ (s acc : Str),
      wordsAux (acc.map f) (s.map f) = (wordsAux acc s).map (List.map f) := by
  intro s
  induction s with
  | nil =>
    intro acc
    simp only [List.map_nil]
    unfold wordsAux
    by_cases h : acc = []
    · subst h; simp
    · rw [if_neg (by simpa [List.map_eq_nil_iff] using h), if_neg h]
      simp
  | cons c cs ih =>
    intro acc
    simp only [List.map_cons]
    unfold wordsAux
    rw [hf c]
    by_cases hc : c.isWhitespace = true
    · rw [if_pos hc, if_pos hc]
      by_cases h : acc = []
      · subst h
        simp only [List.map_nil, if_pos rfl]
        exact ih []
      · rw [if_neg (by simpa [List.map_eq_nil_iff] using h), if_neg h]
        simp only [List.map_cons, List.map_reverse]
        exact congrArg ((acc.map f).reverse :: ·) (ih [])
    · rw [if_neg hc, if_neg hc]
      exact ih (c :: acc)

theorem words_map (f : Char → Char) (hf : ∀ c, (f c).isWhitespace = c.isWhitespace)
    (s : Str) : words (s.map f) = (words s).map (List.map f) :=
  wordsAux_map f hf s []

theorem joinWords_map (f : Char → Char) (hsp : f ' ' = ' ') :
    ∀ ws : List Str, joinWords (ws.map (List.map f)) = (joinWords ws).map f := by
  intro ws
  induction ws with
  | nil => rfl
  | cons w vs ih =>
    cases vs with
    | nil => rfl
    | cons v rest =>
      show List.map f w ++ ' ' :: joinWords ((v :: rest).map (List.map f))
          = (w ++ ' ' :: joinWords (v :: rest)).map f
      rw [ih]
      simp [hsp]

theorem normalize_username_idem (s : Str) :
    normalize_username (some (normalize_username (some s)))
      = normalize_username (some s) := by
  show casefold (joinWords (words (casefold (joinWords (words s)))))
      = casefold (joinWords (words s))
  unfold casefold
  rw [words_map casefoldChar isWhitespace_casefoldChar,
    words_joinWords (words s) (words_good s),
    joinWords_map casefoldChar casefoldChar_space,
    List.map_map]
  exact List.map_congr_left (fun c _ => casefoldChar_idem c)

/-!  Association-list dictionary facts. -/

theorem dictGet_dictSet_self (d : Tbl) (k : Str) (v dflt : Int) :
    dictGet (dictSet d k v) k dflt = v := by
  induction d with
  | nil => simp [dictSet, dictGet]
  | cons p rest ih =>
    obtain ⟨k', v'⟩ := p
    by_cases h : k' = k
    · subst h; simp [dictSet, dictGet]
    · simp [dictSet, dictGet, h, ih]

theorem dictGet_of_not_mem (d : Tbl) (k : Str) (dflt : Int) :
    dictMem d k = false → dictGet d k dflt = dflt := by
  induction d with
  | nil => intro _; rfl
  | cons p rest ih =>
    obtain ⟨k', v'⟩ := p
    intro h
    simp only [dictMem, Bool.or_eq_false_iff, decide_eq_false_iff_not] at h
    simp [dictGet, h.1, ih h.2]

theorem dictSet_of_not_mem (d : Tbl) (k : Str) (v : Int) :
    dictMem d k = false → dictSet d k v = d ++ [(k, v)] := by
  induction d with
  | nil => intro _; rfl
  | cons p rest ih =>
    obtain ⟨k', v'⟩ := p
    intro h
    simp only [dictMem, Bool.or_eq_false_iff, decide_eq_false_iff_not] at h
    simp [dictSet, h.1, ih h.2]

theorem dictMem_append (a b : Tbl) (k : Str) :
    dictMem (a ++ b) k = (dictMem a k || dictMem b k) := by
  induction a with
  | nil => rfl
  | cons p rest ih => simp [dictMem, ih, Bool.or_assoc]

theorem dictMem_eq_true_iff (d : Tbl) (k : Str) :
    dictMem d k = true ↔ k ∈ d.map Prod.fst := by
  induction d with
  | nil => simp [dictMem]
  | cons p rest ih =>
    obtain ⟨k', v'⟩ := p
    simp only [dictMem, List.map_cons, List.mem_cons, Bool.or_eq_true,
      decide_eq_true_eq, ih]
    constructor
    · rintro (h | h)
      exacts [Or.inl h.symm, Or.inr h]
    · rintro (h | h)
      exacts [Or.inl h.symm, Or.inr h]

theorem keys_dictSet (d : Tbl) (k : Str) (v : Int) :
    (dictSet d k v).map Prod.fst
      = if dictMem d k then d.map Prod.fst else d.map Prod.fst ++ [k] := by
  induction d with
  | nil => simp [dictSet, dictMem]
  | cons p rest ih =>
    obtain ⟨k', v'⟩ := p
    by_cases h : k' = k
    · subst h; simp [dictSet, dictMem]
    · by_cases hm : dictMem rest k
      · simp [dictSet, dictMem, h, ih, hm]
      · simp [dictSet, dictMem, h, ih, hm]

theorem entry_mem_dictSet (d : Tbl) (k : Str) (v : Int) :
    ∀ p ∈ dictSet d k v, p = (k, v) ∨ p ∈ d := by
  induction d with
  | nil => intro p hp; simp [dictSet] at hp; exact Or.inl hp
  | cons q rest ih =>
    obtain ⟨k', v'⟩ := q
    intro p hp
    by_cases h : k' = k
    · subst h
      simp only [dictSet, if_pos rfl] at hp
      rcases List.mem_cons.mp hp with rfl | hp
      · exact Or.inl rfl
      · exact Or.inr (List.mem_cons_of_mem _ hp)
    · simp only [dictSet, if_neg h] at hp
      rcases List.mem_cons.mp hp with rfl | hp
      · exact Or.inr (List.mem_cons_self _ _)
      · rcases ih p hp with h1 | h1
        · exact Or.inl h1
        · exact Or.inr (List.mem_cons_of_mem _ h1)

theorem dictGet_nonneg (t : Tbl) :
    (∀ p ∈ t, goodEntry p) → ∀ k : Str, 0 ≤ dictGet t k 0 := by
  induction t with
  | nil => intro _ k; simp [dictGet]
  | cons p rest ih =>
    obtain ⟨k', v'⟩ := p
    intro h k
    simp only [dictGet]
    split
    · exact (h (k', v') (List.mem_cons_self _ _)).2.2
    · exact ih (fun q hq => h q (List.mem_cons_of_mem _ hq)) k

theorem goodTbl_dictSet (t : Tbl) (h : goodTbl t) (k : Str) (v : Int)
    (hk : k ≠ []) (hnorm : normalize_username (some k) = k) (hv : 0 ≤ v) :
    goodTbl (dictSet t k v) := by
  constructor
  · intro p hp
    rcases entry_mem_dictSet t k v p hp with rfl | hp
    · exact ⟨hk, hnorm, hv⟩
    · exact h.1 p hp
  · rw [keys_dictSet]
    by_cases hm : dictMem t k
    · simp only [hm, if_true]
      exact h.2
    · simp only [hm, Bool.false_eq_true, if_false]
      rw [List.nodup_append]
      refine ⟨h.2, by simp, ?_⟩
      intro a ha hb
      rcases List.mem_singleton.mp hb with rfl
      exact absurd ((dictMem_eq_true_iff t a).mpr ha) (by simp [hm])

/-!  Facts about `_normalize_data`. -/

theorem foldl_normStep_good :
    ∀ t acc : Tbl, (∀ p ∈ t, goodEntry p) → (t.map Prod.fst).Nodup →
      (∀ k ∈ t.map Prod.fst, dictMem acc k = false) →
      (t.map (fun p => (p.1, JVal.jint p.2))).foldl normStep acc = acc ++ t := by
  intro t
  induction t with
  | nil => intro acc _ _ _; simp
  | cons p rest ih =>
    obtain ⟨k, v⟩ := p
    intro acc hg hnd hdisj
    have hgp := hg (k, v) (List.mem_cons_self _ _)
    have hmem : dictMem acc k = false := hdisj k (by simp)
    have hstep : normStep acc (k, JVal.jint v) = acc ++ [(k, v)] := by
      simp only [normStep]
      rw [hgp.2.1, if_neg hgp.1]
      show dictSet acc k (dictGet acc k 0 + max 0 v) = acc ++ [(k, v)]
      rw [dictGet_of_not_mem acc k 0 hmem, dictSet_of_not_mem acc k _ hmem]
      have : (0 : Int) + max 0 v = v := by
        have := hgp.2.2
        omega
      rw [this]
    simp only [List.map_cons, List.foldl_cons, hstep]
    have hknotrest : k ∉ rest.map Prod.fst := (List.nodup_cons.mp hnd).1
    rw [ih (acc ++ [(k, v)]) (fun q hq => hg q (List.mem_cons_of_mem _ hq))
      (List.nodup_cons.mp hnd).2 ?_]
    · simp
    · intro k' hk'
      rw [dictMem_append]
      have h1 : dictMem acc k' = false := hdisj k' (List.mem_cons_of_mem _ hk')
      have h2 : dictMem [(k, v)] k' = false := by
        simp only [dictMem, Bool.or_false, decide_eq_false_iff_not]
        intro hkk
        exact hknotrest (hkk ▸ hk')
      rw [h1, h2]
      rfl

theorem normalize_data_roundtrip (t : Tbl) (h : goodTbl t) :
    _normalize_data (tableToJson t) = t := by
  show (t.map (fun p => (p.1, JVal.jint p.2))).foldl normStep [] = t
  have := foldl_normStep_good t [] h.1 h.2 (fun k _ => rfl)
  simpa using this

theorem goodTbl_nil : goodTbl ([] : Tbl) := ⟨by simp, List.nodup_nil⟩

theorem goodTbl_normStep (acc : Tbl) (kv : Str × JVal) (h : goodTbl acc) :
    goodTbl (normStep acc kv) := by
  have hred : normStep acc kv
      = if normalize_username (some kv.1) = [] then acc
        else match pyToInt kv.2 with
          | none => acc
          | some total =>
            dictSet acc (normalize_username (some kv.1))
              (dictGet acc (normalize_username (some kv.1)) 0 + max 0 total) := rfl
  rw [hred]
  split
  · exact h
  · split
    · exact h
    · rename_i hname _ total _
      refine goodTbl_dictSet acc h _ _ hname (normalize_username_idem kv.1) ?_
      have h1 := dictGet_nonneg acc h.1 (normalize_username (some kv.1))
      omega

theorem goodTbl_foldl_normStep :
    ∀ (fields : List (Str × JVal)) (acc : Tbl),
      goodTbl acc → goodTbl (fields.foldl normStep acc) := by
  intro fields
  induction fields with
  | nil => intro acc h; exact h
  | cons kv rest ih =>
    intro acc h
    exact ih (normStep acc kv) (goodTbl_normStep acc kv h)

theorem goodTbl_normalize_data (v : JVal) : goodTbl (_normalize_data v) := by
  cases v <;>
    first
      | exact goodTbl_nil
      | exact goodTbl_foldl_normStep _ [] goodTbl_nil

theorem goodTbl_load (fc : FileContent) : goodTbl (load_data fc) := by
  cases fc <;>
    first
      | exact goodTbl_nil
      | exact goodTbl_normalize_data _

theorem load_writeTable (t : Tbl) :
    load_data (writeTable t) = _normalize_data (tableToJson t) :=
  normalize_data_roundtrip _ (goodTbl_normalize_data _)

theorem load_writeTable_good (t : Tbl) (h : goodTbl t) :
    load_data (writeTable t) = t := by
  rw [load_writeTable]
  exact normalize_data_roundtrip t h

/-!  Behaviour of the store operations under a successful persist. -/

theorem normalize_fix (u : Option Str) (h : normalize_username u ≠ []) :
    normalize_username (some (normalize_username u)) = normalize_username u := by
  cases u with
  | none => exact absurd rfl h
  | some s => exact normalize_username_idem s

theorem goodTbl_written (fs : FS) (u : Option Str)
    (h : normalize_username u ≠ []) (x : Int) :
    goodTbl (dictSet (load_data fs.file) (normalize_username u) (max 0 x)) :=
  goodTbl_dictSet _ (goodTbl_load _) _ _ h (normalize_fix u h) (le_max_left 0 x)

theorem update_delta_ok (fs : FS) (u : Option Str) (d : Int)
    (h : normalize_username u ≠ []) :
    (update_user_total fs .ok u d none).2
        = some (max 0 (dictGet (load_data fs.file) (normalize_username u) 0 + d))
    ∧ load_data (update_user_total fs .ok u d none).1.file
        = dictSet (load_data fs.file) (normalize_username u)
            (max 0 (dictGet (load_data fs.file) (normalize_username u) 0 + d)) := by
  have hred : update_user_total fs .ok u d none
      = ({ file := writeTable (dictSet (load_data fs.file) (normalize_username u)
              (max 0 (dictGet (load_data fs.file) (normalize_username u) 0 + d))),
           temps := fs.temps },
         some (dictGet (dictSet (load_data fs.file) (normalize_username u)
              (max 0 (dictGet (load_data fs.file) (normalize_username u) 0 + d)))
            (normalize_username u) 0)) := by
    unfold update_user_total
    rw [if_neg h]
    rfl
  rw [hred]
  constructor
  · rw [dictGet_dictSet_self]
  · exact load_writeTable_good _ (goodTbl_written fs u h _)

theorem update_abs_ok (fs : FS) (u : Option Str) (d v : Int)
    (h : normalize_username u ≠ []) :
    (update_user_total fs .ok u d (some v)).2 = some (max 0 v)
    ∧ load_data (update_user_total fs .ok u d (some v)).1.file
        = dictSet (load_data fs.file) (normalize_username u) (max 0 v) := by
  have hred : update_user_total fs .ok u d (some v)
      = ({ file := writeTable (dictSet (load_data fs.file) (normalize_username u)
              (max 0 v)),
           temps := fs.temps },
         some (dictGet (dictSet (load_data fs.file) (normalize_username u)
              (max 0 v)) (normalize_username u) 0)) := by
    unfold update_user_total
    rw [if_neg h]
    rfl
  rw [hred]
  constructor
  · rw [dictGet_dictSet_self]
  · exact load_writeTable_good _ (goodTbl_written fs u h _)

theorem runUpdates_get_total (u : Option Str) (h : normalize_username u ≠ []) :
    ∀ (ds : List Int) (fs : FS),
      get_total (runUpdates fs u ds).file u
        = ds.foldl (fun t d => max 0 (t + d)) (get_total fs.file u) := by
  intro ds
  induction ds with
  | nil => intro fs; rfl
  | cons d rest ih =>
    intro fs
    show get_total (runUpdates (update_user_total fs .ok u d none).1 u rest).file u = _
    rw [ih (update_user_total fs .ok u d none).1]
    show _ = rest.foldl (fun t d => max 0 (t + d)) (max 0 (get_total fs.file u + d))
    congr 1
    show dictGet (load_data (update_user_total fs .ok u d none).1.file)
        (normalize_username u) 0 = _
    rw [(update_delta_ok fs u d h).2, dictGet_dictSet_self]
    rfl

/-!  Serializability of two concurrent `update_user_total` writers. -/

theorem contrib_nonneg (d : Int) (hd : 0 ≤ d) (p : Phase) : 0 ≤ contrib d p := by
  cases p <;> simp [contrib] <;> exact hd

theorem Inv_init (fc : FileContent) (name : Str) (ds : Fin 2 → Int) :
    Inv fc name ds (initState fc) := by
  refine ⟨goodTbl_load fc, ?_, ?_, ?_⟩
  · simp [initState, contrib]
  · intro i hi
    simp [initState, inCrit] at hi
  · intro i t ht
    simp [initState] at ht

theorem Inv_step (fc : FileContent) (name : Str) (ds : Fin 2 → Int)
    (hname : name ≠ []) (hfix : normalize_username (some name) = name)
    (hpos : ∀ i, 0 ≤ ds i) (s : CState) (hs : Inv fc name ds s) (i : Fin 2) :
    Inv fc name ds (updStep name ds s i) := by
  obtain ⟨hgood, hsum, hlock, hload⟩ := hs
  have ht0 : 0 ≤ dictGet (load_data fc) name 0 :=
    dictGet_nonneg _ (goodTbl_load fc).1 name
  unfold updStep
  obtain rfl | rfl : i = 0 ∨ i = 1 := by omega
  · cases hph : s.ph 0 with
    | start =>
      by_cases hh : s.holder = none
      · rw [if_pos hh]
        refine ⟨hgood, ?_, ?_, ?_⟩
        · rw [hph] at hsum
          simp only [contrib] at hsum
          simp [contrib]
          omega
        · intro j hj
          obtain rfl | rfl : j = 0 ∨ j = 1 := by omega
          · rfl
          · simp at hj
            have hj2 := hlock 1 hj
            rw [hh] at hj2
            cases hj2
        · intro j t ht
          obtain rfl | rfl : j = 0 ∨ j = 1 := by omega
          · simp at ht
          · simp at ht
            exact hload 1 t ht
      · rw [if_neg hh]
        exact ⟨hgood, hsum, hlock, hload⟩
    | locked =>
      refine ⟨hgood, ?_, ?_, ?_⟩
      · rw [hph] at hsum
        simp only [contrib] at hsum
        simp [contrib]
        omega
      · intro j hj
        obtain rfl | rfl : j = 0 ∨ j = 1 := by omega
        · exact hlock 0 (by rw [hph]; rfl)
        · simp at hj
          exact hlock 1 hj
      · intro j t ht
        obtain rfl | rfl : j = 0 ∨ j = 1 := by omega
        · simp at ht
          exact ht.symm
        · simp at ht
          exact hload 1 t ht
    | loaded tl =>
      have htl : tl = load_data s.file := hload 0 tl hph
      subst htl
      have hholder : s.holder = some 0 := hlock 0 (by rw [hph]; rfl)
      have hd0 := hpos 0
      have hc1 : 0 ≤ contrib (ds 1) (s.ph 1) := contrib_nonneg _ (hpos 1) _
      simp only [contrib] at hc1
      rw [hph] at hsum
      simp only [contrib] at hsum
      have hmax : max 0 (dictGet (load_data s.file) name 0 + ds 0)
          = dictGet (load_data s.file) name 0 + ds 0 := by
        apply max_eq_right
        omega
      have hgset : goodTbl (dictSet (load_data s.file) name
          (max 0 (dictGet (load_data s.file) name 0 + ds 0))) :=
        goodTbl_dictSet _ hgood _ _ hname hfix (le_max_left _ _)
      have hw : load_data (writeTable (dictSet (load_data s.file) name
          (max 0 (dictGet (load_data s.file) name 0 + ds 0))))
          = dictSet (load_data s.file) name
              (max 0 (dictGet (load_data s.file) name 0 + ds 0)) :=
        load_writeTable_good _ hgset
      refine ⟨?_, ?_, ?_, ?_⟩
      · show goodTbl (load_data (writeTable (dictSet (load_data s.file) name
            (max 0 (dictGet (load_data s.file) name 0 + ds 0)))))
        rw [hw]
        exact hgset
      · show dictGet (load_data (writeTable (dictSet (load_data s.file) name
            (max 0 (dictGet (load_data s.file) name 0 + ds 0))))) name 0 = _
        rw [hw, dictGet_dictSet_self, hmax]
        simp [contrib]
        omega
      · intro j hj
        obtain rfl | rfl : j = 0 ∨ j = 1 := by omega
        · exact hholder
        · simp at hj
          exact hlock 1 hj
      · intro j t ht
        obtain rfl | rfl : j = 0 ∨ j = 1 := by omega
        · simp at ht
        · simp at ht
          have hj2 := hlock 1 (by rw [ht]; rfl)
          rw [hholder] at hj2
          exact absurd hj2 (by decide)
    | saved =>
      have hholder : s.holder = some 0 := hlock 0 (by rw [hph]; rfl)
      refine ⟨hgood, ?_, ?_, ?_⟩
      · rw [hph] at hsum
        simp only [contrib] at hsum
        simp [contrib]
        omega
      · intro j hj
        obtain rfl | rfl : j = 0 ∨ j = 1 := by omega
        · simp [inCrit] at hj
        · simp at hj
          have hj2 := hlock 1 hj
          rw [hholder] at hj2
          exact absurd hj2 (by decide)
      · intro j t ht
        obtain rfl | rfl : j = 0 ∨ j = 1 := by omega
        · simp at ht
        · simp at ht
          exact hload 1 t ht
    | done => exact ⟨hgood, hsum, hlock, hload⟩
  · cases hph : s.ph 1 with
    | start =>
      by_cases hh : s.holder = none
      · rw [if_pos hh]
        refine ⟨hgood, ?_, ?_, ?_⟩
        · rw [hph] at hsum
          simp only [contrib] at hsum
          simp [contrib]
          omega
        · intro j hj
          obtain rfl | rfl : j = 0 ∨ j = 1 := by omega
          · simp at hj
            have hj2 := hlock 0 hj
            rw [hh] at hj2
            cases hj2
          · rfl
        · intro j t ht
          obtain rfl | rfl : j = 0 ∨ j = 1 := by omega
          · simp at ht
            exact hload 0 t ht
          · simp at ht
      · rw [if_neg hh]
        exact ⟨hgood, hsum, hlock, hload⟩
    | locked =>
      refine ⟨hgood, ?_, ?_, ?_⟩
      · rw [hph] at hsum
        simp only [contrib] at hsum
        simp [contrib]
        omega
      · intro j hj
        obtain rfl | rfl : j = 0 ∨ j = 1 := by omega
        · simp at hj
          exact hlock 0 hj
        · exact hlock 1 (by rw [hph]; rfl)
      · intro j t ht
        obtain rfl | rfl : j = 0 ∨ j = 1 := by omega
        · simp at ht
          exact hload 0 t ht
        · simp at ht
          exact ht.symm
    | loaded tl =>
      have htl : tl = load_data s.file := hload 1 tl hph
      subst htl
      have hholder : s.holder = some 1 := hlock 1 (by rw [hph]; rfl)
      have hd1 := hpos 1
      have hc0 : 0 ≤ contrib (ds 0) (s.ph 0) := contrib_nonneg _ (hpos 0) _
      simp only [contrib] at hc0
      rw [hph] at hsum
      simp only [contrib] at hsum
      have hmax : max 0 (dictGet (load_data s.file) name 0 + ds 1)
          = dictGet (load_data s.file) name 0 + ds 1 := by
        apply max_eq_right
        omega
      have hgset : goodTbl (dictSet (load_data s.file) name
          (max 0 (dictGet (load_data s.file) name 0 + ds 1))) :=
        goodTbl_dictSet _ hgood _ _ hname hfix (le_max_left _ _)
      have hw : load_data (writeTable (dictSet (load_data s.file) name
          (max 0 (dictGet (load_data s.file) name 0 + ds 1))))
          = dictSet (load_data s.file) name
              (max 0 (dictGet (load_data s.file) name 0 + ds 1)) :=
        load_writeTable_good _ hgset
      refine ⟨?_, ?_, ?_, ?_⟩
      · show goodTbl (load_data (writeTable (dictSet (load_data s.file) name
            (max 0 (dictGet (load_data s.file) name 0 + ds 1)))))
        rw [hw]
        exact hgset
      · show dictGet (load_data (writeTable (dictSet (load_data s.file) name
            (max 0 (dictGet (load_data s.file) name 0 + ds 1))))) name 0 = _
        rw [hw, dictGet_dictSet_self, hmax]
        simp [contrib]
        omega
      · intro j hj
        obtain rfl | rfl : j = 0 ∨ j = 1 := by omega
        · simp at hj
          exact hlock 0 hj
        · exact hholder
      · intro j t ht
        obtain rfl | rfl : j = 0 ∨ j = 1 := by omega
        · simp at ht
          have hj2 := hlock 0 (by rw [ht]; rfl)
          rw [hholder] at hj2
          exact absurd hj2 (by decide)
        · simp at ht
    | saved =>
      have hholder : s.holder = some 1 := hlock 1 (by rw [hph]; rfl)
      refine ⟨hgood, ?_, ?_, ?_⟩
      · rw [hph] at hsum
        simp only [contrib] at hsum
        simp [contrib]
        omega
      · intro j hj
        obtain rfl | rfl : j = 0 ∨ j = 1 := by omega
        · simp at hj
          have hj2 := hlock 0 hj
          rw [hholder] at hj2
          exact absurd hj2 (by decide)
        · simp [inCrit] at hj
      · intro j t ht
        obtain rfl | rfl : j = 0 ∨ j = 1 := by omega
        · simp at ht
          exact hload 0 t ht
        · simp at ht
    | done => exact ⟨hgood, hsum, hlock, hload⟩

theorem Inv_runSched (fc : FileContent) (name : Str) (ds : Fin 2 → Int)
    (hname : name ≠ []) (hfix : normalize_username (some name) = name)
    (hpos : ∀ i, 0 ≤ ds i) (sched : List (Fin 2)) :
    Inv fc name ds (runSched fc name ds sched) := by
  have step : ∀ (l : List (Fin 2)) (s : CState), Inv fc name ds s →
      Inv fc name ds (l.foldl (updStep name ds) s) := by
    intro l
    induction l with
    | nil => intro s hs; exact hs
    | cons a rest ih =>
      intro s hs
      exact ih _ (Inv_step fc name ds hname hfix hpos s hs a)
  exact step sched _ (Inv_init fc name ds)

/-!  The claims. -/

/-- C1, counterexample: starting from a fresh user, the serial updates with
deltas `-5` then `3` (all persists succeeding) leave a stored total of `3`,
while `max(0, -5 + 3) = 0` — the claimed `max(0, Σ dᵢ)` law fails because the
code clamps at every step, not once at the end. -/
theorem C1_counterexample :
    get_total (runUpdates ⟨.missing, 0⟩ (some ("alice".toList)) [-5, 3]).file
        (some ("alice".toList)) = 3
    ∧ get_total (runUpdates ⟨.missing, 0⟩ (some ("alice".toList)) [-5, 3]).file
        (some ("alice".toList)) ≠ max 0 ((-5) + 3 : Int) := by
  constructor
  · decide
  · decide

/-- C1 (amended): for every sequence of serial `update_user_total` calls with
integer deltas on a fresh user, with every persist succeeding, the final
stored total is the left fold of per-step clamped additions
`tᵢ = max(0, tᵢ₋₁ + dᵢ)` starting from 0 (which equals `max(0, Σ dᵢ)`
whenever no intermediate clamping occurs, e.g. for all-non-negative
deltas). -/
theorem C1_clamped_fold (u : Option Str) (h : normalize_username u ≠ [])
    (ds : List Int) :
    get_total (runUpdates ⟨.missing, 0⟩ u ds).file u
      = ds.foldl (fun t d => max 0 (t + d)) 0 :=
  runUpdates_get_total u h ds ⟨.missing, 0⟩

/-- C1 witness: concrete instance of the amended law. -/
theorem C1_clamped_fold_witness :
    get_total (runUpdates ⟨.missing, 0⟩ (some ("bob".toList)) [5, -2]).file
        (some ("bob".toList))
      = [5, -2].foldl (fun t d => max 0 (t + d)) 0 :=
  C1_clamped_fold (some ("bob".toList)) (by decide) [5, -2]

/-- C2: if two independent callers concurrently run `update_user_total` on
the same key with deltas +10 and +50, the lock serializes the two
read-modify-write cycles, so under every scheduler interleaving in which
both finish, the final stored total is the starting total plus 60 (no lost
update). -/
theorem C2_lock_serializes (fc : FileContent) (name : Str)
    (hname : name ≠ []) (hfix : normalize_username (some name) = name)
    (sched : List (Fin 2))
    (h0 : (runSched fc name deltas2 sched).ph 0 = .done)
    (h1 : (runSched fc name deltas2 sched).ph 1 = .done) :
    dictGet (load_data (runSched fc name deltas2 sched).file) name 0
      = dictGet (load_data fc) name 0 + 60 := by
  have hinv := Inv_runSched fc name deltas2 hname hfix (by decide) sched
  rw [hinv.total, h0, h1]
  simp only [contrib, deltas2]
  norm_num
  omega

/-- C2 witness: a concrete interleaved schedule in which both writers
finish. -/
theorem C2_lock_serializes_witness :
    dictGet (load_data (runSched .missing ("bob".toList) deltas2
        [0, 0, 0, 0, 1, 1, 1, 1]).file) ("bob".toList) 0
      = dictGet (load_data FileContent.missing) ("bob".toList) 0 + 60 :=
  C2_lock_serializes .missing ("bob".toList) (by decide) (by decide)
    [0, 0, 0, 0, 1, 1, 1, 1] (by decide) (by decide)

/-- C3: for every well-formed table `t` (non-empty normalized keys, no
duplicates, non-negative integer totals), a `save_data(t)` succeeds and a
subsequent `load_data` reproduces `t` exactly: `decode(encode(t)) = t`. -/
theorem C3_roundtrip (t : Tbl) (h : goodTbl t) (fs : FS) :
    (save_data fs .ok t).2 = true
    ∧ load_data (save_data fs .ok t).1.file = t := by
  refine ⟨rfl, ?_⟩
  show load_data (writeTable t) = t
  exact load_writeTable_good t h

/-- C3 witness: round trip of a concrete well-formed table. -/
theorem C3_roundtrip_witness :
    (save_data ⟨.missing, 0⟩ .ok [(("alice".toList), 3)]).2 = true
    ∧ load_data (save_data ⟨.missing, 0⟩ .ok [(("alice".toList), 3)]).1.file
        = [(("alice".toList), 3)] :=
  C3_roundtrip [(("alice".toList), 3)] (by decide) ⟨.missing, 0⟩

/-- C4: decoding clamps a negative total to 0 (`{"alice": -5}` ↦
`{"alice": 0}`), merges keys that normalize to the same user key by summing
their clamped totals (`{"Bob": 10, "bob": 5}` ↦ `{"bob": 15}`), and drops
any entry whose key normalizes to empty or whose value cannot be coerced to
an integer. -/
theorem C4_decode_rules :
    _normalize_data (.jobj [(("alice".toList), .jint (-5))])
        = [(("alice".toList), 0)]
    ∧ _normalize_data (.jobj [(("Bob".toList), .jint 10), (("bob".toList), .jint 5)])
        = [(("bob".toList), 15)]
    ∧ ∀ (pre post : List (Str × JVal)) (k : Str) (jv : JVal),
        (normalize_username (some k) = [] ∨ pyToInt jv = none) →
        _normalize_data (.jobj (pre ++ (k, jv) :: post))
          = _normalize_data (.jobj (pre ++ post)) := by
  refine ⟨by decide, by decide, ?_⟩
  intro pre post k jv h
  have hstep : ∀ acc : Tbl, normStep acc (k, jv) = acc := by
    intro acc
    rcases h with h | h
    · simp [normStep, h]
    · simp [normStep, h]
  show (pre ++ (k, jv) :: post).foldl normStep []
      = (pre ++ post).foldl normStep []
  rw [List.foldl_append, List.foldl_append, List.foldl_cons, hstep]

/-- C4 witness: an entry with an empty-normalizing key is dropped. -/
theorem C4_decode_rules_witness :
    _normalize_data (.jobj ([(("bob".toList), .jint 5)] ++ ((" ".toList), .jnull) :: []))
      = _normalize_data (.jobj ([(("bob".toList), .jint 5)] ++ [])) :=
  C4_decode_rules.2.2 [(("bob".toList), .jint 5)] [] (" ".toList) .jnull
    (Or.inl (by decide))

/-- C5: evaluation at the failing input.  When the `json.dump` step of
`save_data` fails, the durable file is unchanged and `False` is returned,
but the freshly created temporary file is NOT removed (the leftover count
rises from 0 to 1), because `temp_file_path` is assigned only after
`json.dump` returns, so the cleanup guard sees `None` — contradicting the
claim that a failure at any step removes the temporary file. -/
theorem C5_failed_write_leaves_temp :
    save_data ⟨.jval (tableToJson [(("alice".toList), 3)]), 0⟩ .failWrite
        [(("alice".toList), 5)]
      = (⟨.jval (tableToJson [(("alice".toList), 3)]), 1⟩, false) := rfl

/-- C6: `load_data` yields the empty table on a missing file, on unreadable
or unparsable bytes, and on a parse that yields a non-object top level; the
model function is total, mirroring that the corresponding exceptions are all
caught. -/
theorem C6_load_failure_empty :
    load_data .missing = [] ∧ load_data .garbage = []
    ∧ ∀ v : JVal, v.isObj = false → load_data (.jval v) = [] := by
  refine ⟨rfl, rfl, ?_⟩
  intro v hv
  cases v with
  | jobj fields => simp [JVal.isObj] at hv
  | jnull => rfl
  | jbool b => rfl
  | jint n => rfl
  | jstr s => rfl
  | jarr elems => rfl

/-- C6 witness: a stream parsing to the non-object `7` loads as empty. -/
theorem C6_load_failure_empty_witness : load_data (.jval (.jint 7)) = [] :=
  C6_load_failure_empty.2.2 (.jint 7) rfl

/-- C7: when the raw name normalizes to empty (including non-string input,
modelled as `none`), `ensure_user_exists` returns `False` and
`update_user_total` returns `None` for any delta or absolute value, under
any I/O outcome, with the durable state untouched (the operations return
before touching the file, which the model reflects by passing `fs` through
unchanged). -/
theorem C7_invalid_name_rejected (u : Option Str)
    (h : normalize_username u = []) (fs : FS) (oc : SaveOutcome) (d : Int)
    (a : Option Int) :
    ensure_user_exists fs oc u = (fs, false)
    ∧ update_user_total fs oc u d a = (fs, none) := by
  constructor
  · simp [ensure_user_exists, h]
  · simp [update_user_total, h]

/-- C7 witness: a non-string name and an all-whitespace name are both
rejected. -/
theorem C7_invalid_name_rejected_witness :
    ensure_user_exists ⟨.missing, 0⟩ .ok none = (⟨.missing, 0⟩, false)
    ∧ update_user_total ⟨.missing, 0⟩ .ok (some ("   ".toList)) 5 none
        = (⟨.missing, 0⟩, none) :=
  ⟨(C7_invalid_name_rejected none rfl ⟨.missing, 0⟩ .ok 0 none).1,
   (C7_invalid_name_rejected (some ("   ".toList)) (by decide) ⟨.missing, 0⟩
      .ok 5 none).2⟩

/-- C8: for every valid name and integer `v`, `update_user_total` with
`absolute_total = v` returns `max(0, v)` and an immediately following
`getTotal` on the same name reads back `max(0, v)`, regardless of the prior
stored total, whenever the persist succeeds. -/
theorem C8_set_absolute_get (fs : FS) (u : Option Str)
    (h : normalize_username u ≠ []) (v : Int) :
    (update_user_total fs .ok u 0 (some v)).2 = some (max 0 v)
    ∧ get_total (update_user_total fs .ok u 0 (some v)).1.file u = max 0 v := by
  refine ⟨(update_abs_ok fs u 0 v h).1, ?_⟩
  show dictGet (load_data (update_user_total fs .ok u 0 (some v)).1.file)
      (normalize_username u) 0 = max 0 v
  rw [(update_abs_ok fs u 0 v h).2, dictGet_dictSet_self]

/-- C8 witness: overwriting a prior total of 42 with absolute value -7
stores and reads back 0. -/
theorem C8_set_absolute_get_witness :
    (update_user_total ⟨.jval (tableToJson [(("bob".toList), 42)]), 0⟩ .ok
        (some ("Bob".toList)) 0 (some (-7))).2 = some (max 0 (-7))
    ∧ get_total (update_user_total ⟨.jval (tableToJson [(("bob".toList), 42)]), 0⟩
        .ok (some ("Bob".toList)) 0 (some (-7))).1.file (some ("Bob".toList))
      = max 0 (-7) :=
  C8_set_absolute_get ⟨.jval (tableToJson [(("bob".toList), 42)]), 0⟩
    (some ("Bob".toList)) (by decide) (-7)

/-- C9: `getTotal` on a name with no stored entry returns 0; the read path
is a pure function of the durable content (it never writes), so no entry is
created. -/
theorem C9_get_absent_zero (fc : FileContent) (u : Option Str)
    (h : dictMem (load_data fc) (normalize_username u) = false) :
    get_total fc u = 0 :=
  dictGet_of_not_mem _ _ _ h

/-- C9 witness: reading a never-seen name from a populated store. -/
theorem C9_get_absent_zero_witness :
    get_total (.jval (.jobj [(("bob".toList), .jint 5)]))
        (some ("alice".toList)) = 0 :=
  C9_get_absent_zero (.jval (.jobj [(("bob".toList), .jint 5)]))
    (some ("alice".toList)) (by decide)

/-- C10: every snapshot `save_data` successfully persists is the
normalization of its argument and satisfies the Table invariant (non-empty
normalized keys, no duplicates, non-negative totals), even when the
in-memory table passed by the caller violates it. -/
theorem C10_save_normalizes (fs : FS) (oc : SaveOutcome) (data : Tbl)
    (h : (save_data fs oc data).2 = true) :
    load_data (save_data fs oc data).1.file = _normalize_data (tableToJson data)
    ∧ goodTbl (load_data (save_data fs oc data).1.file) := by
  cases oc with
  | ok =>
    constructor
    · exact load_writeTable data
    · show goodTbl (load_data (writeTable data))
      rw [load_writeTable]
      exact goodTbl_normalize_data _
  | failMkdir => exact absurd h (by simp [save_data])
  | failCreate => exact absurd h (by simp [save_data])
  | failWrite => exact absurd h (by simp [save_data])
  | failRename => exact absurd h (by simp [save_data])

/-- C10 witness: persisting an invariant-violating table (mixed-case
duplicate keys, a negative total) stores its normalization. -/
theorem C10_save_normalizes_witness :
    load_data (save_data ⟨.missing, 0⟩ .ok
        [(("Bob".toList), -3), (("bob".toList), 5)]).1.file
      = _normalize_data (tableToJson [(("Bob".toList), -3), (("bob".toList), 5)])
    ∧ goodTbl (load_data (save_data ⟨.missing, 0⟩ .ok
        [(("Bob".toList), -3), (("bob".toList), 5)]).1.file) :=
  C10_save_normalizes ⟨.missing, 0⟩ .ok
    [(("Bob".toList), -3), (("bob".toList), 5)] rfl

end Counter
